import Mathlib

set_option maxHeartbeats 2000000
set_option maxRecDepth 4000

/-!
Verification of the go-trustedproxies library (main.go of
sorenisanerd/go-trustedproxies) against its natural-language specification.

The embedding below translates, into executable Lean definitions,
  - the relevant parts of Go's `net` package that the library calls
    (`net.ParseIP`, `net.ParseCIDR`, `net.CIDRMask`, `IP.To4`, `IP.Mask`,
    `IPNet.Contains`, along with the internal helpers `dtoi`, `xtoi`,
    `parseIPv4`, `parseIPv6`), and
  - the library itself (`TrustedProxies`, `New`, `AddFromString`,
    `IsIPTrusted`, `netFromIPOrCIDR`, `DeduceClientIP`,
    `filterOutIPsFromUntrustedSources`, `headerToIPs`).

Modelling conventions:
  - a Go `net.IP` (a byte slice, possibly nil) is `Option (List Nat)`:
    `none` is the nil slice produced by a failed parse, `some bs` a real
    address given by its bytes; where a function only ever sees a non-nil
    IP it takes the `List Nat` directly;
  - Go strings are consumed as `List Char` (`String.data`); inputs in the
    source arrive as Go `string`, so the top-level entry points take a
    Lean `String` and immediately convert;
  - a Go runtime panic (slice index out of range) is modelled by an
    `Option`-valued result being `none`: the panicking computation
    produces no value;
  - byte-level operations use `Nat` with `&&&`; all byte values produced
    by the parsers are < 256, so no truncation is needed.
-/

/-- A Go `net.IP` value: `none` models the nil slice. -/
abbrev NetIP := Option (List Nat)

/-- Go `unicode.IsSpace` restricted to the Latin-1 range, which is the set
of characters Go's `strings.TrimSpace` fast path handles; header and
specification strings in this development are ASCII. -/
def isSpace (c : Char) : Bool :=
  c == ' ' || c == '\t' || c == '\n' || c == Char.ofNat 11 || c == Char.ofNat 12 ||
    c == '\r' || c == Char.ofNat 133 || c == Char.ofNat 160

/-- Go `strings.TrimSpace`: drop whitespace from both ends. -/
def trimSpace (cs : List Char) : List Char :=
  ((cs.dropWhile isSpace).reverse.dropWhile isSpace).reverse

/-- Go `strings.Split(s, ",")`: split around every comma; the result always
has one more element than the number of commas. -/
def splitOnComma : List Char → List (List Char)
  | [] => [[]]
  | c :: cs =>
    if c == ',' then [] :: splitOnComma cs
    else
      match splitOnComma cs with
      | g :: gs => (c :: g) :: gs
      | [] => [[c]]

/-- Go `net.dtoi`: parse a decimal prefix. Returns (value, characters
consumed, ok); stops with ok = false at 0xFFFFFF as in the source. -/
def dtoiLoop : List Char → Nat → Nat → Nat × Nat × Bool
  | c :: rest, n, i =>
    if '0' ≤ c ∧ c ≤ '9' then
      let m := n * 10 + (c.toNat - Char.toNat '0')
      if 0xFFFFFF ≤ m then (0xFFFFFF, i, false)
      else dtoiLoop rest m (i + 1)
    else if i = 0 then (0, 0, false) else (n, i, true)
  | [], n, i => if i = 0 then (0, 0, false) else (n, i, true)

def dtoi (s : List Char) : Nat × Nat × Bool := dtoiLoop s 0 0

/-- Go `net.xtoi`: parse a hexadecimal prefix. -/
def xtoiLoop : List Char → Nat → Nat → Nat × Nat × Bool
  | c :: rest, n, i =>
    let d :=
      if '0' ≤ c ∧ c ≤ '9' then some (c.toNat - Char.toNat '0')
      else if 'a' ≤ c ∧ c ≤ 'f' then some (c.toNat - Char.toNat 'a' + 10)
      else if 'A' ≤ c ∧ c ≤ 'F' then some (c.toNat - Char.toNat 'A' + 10)
      else none
    match d with
    | none => if i = 0 then (0, i, false) else (n, i, true)
    | some d =>
      let m := n * 16 + d
      if 0xFFFFFF ≤ m then (0, i, false)
      else xtoiLoop rest m (i + 1)
  | [], n, i => if i = 0 then (0, i, false) else (n, i, true)

def xtoi (s : List Char) : Nat × Nat × Bool := xtoiLoop s 0 0

/-- The 12-byte v4-in-v6 marker Go prepends to 4-byte addresses when it
stores them in 16-byte form. -/
def v4InV6 : List Nat := [0, 0, 0, 0, 0, 0, 0, 0, 0, 0, 0xff, 0xff]

/-- One dotted-decimal field of `net.parseIPv4`: value ≤ 255, and non-zero
components must not have leading zeroes. -/
def v4Field (s : List Char) : Option (Nat × List Char) :=
  match dtoi s with
  | (n, c, ok) =>
    if ok = false ∨ 255 < n then none
    else if 1 < c ∧ s.head? = some '0' then none
    else some (n, s.drop c)

/-- The four-iteration loop of `net.parseIPv4`; every field after the
first must be preceded by a dot, and the string must be fully consumed. -/
def v4Loop : Nat → List Char → List Nat → Option (List Nat)
  | 0, s, acc => if s.isEmpty then some acc else none
  | k + 1, s, acc =>
    match (if acc.isEmpty then some s else
            match s with
            | '.' :: rest => some rest
            | _ => none) with
    | none => none
    | some s1 =>
      match v4Field s1 with
      | none => none
      | some (b, s2) => v4Loop k s2 (acc ++ [b])

/-- Go `net.parseIPv4`, which returns the address in 16-byte v4-in-v6
form (`net.IPv4(...)`). -/
def parseIPv4 (s : List Char) : Option (List Nat) :=
  (v4Loop 4 s []).map (fun p => v4InV6 ++ p)

/-- The main loop of Go `net.parseIPv6`: hex groups separated by colons,
at most one `::`, an optional trailing dotted-quad. The state is
(remaining input, 16-byte buffer, write index, position of `::` if seen).
The loop runs at most eight times (the index grows by at least two each
iteration and the loop stops at 16), so a fuel of 8 is exact; the fuel-0
case returns the state unchanged exactly like the `i < 16` exit. -/
def p6Loop : Nat → List Char → List Nat → Nat → Option Nat →
    Option (List Nat × Nat × Option Nat × List Char)
  | 0, s, ip, i, ell => some (ip, i, ell, s)
  | fuel + 1, s, ip, i, ell =>
    if 16 ≤ i then some (ip, i, ell, s)
    else
      match xtoi s with
      | (n, c, ok) =>
        if ok = false ∨ 0xFFFF < n then none
        else if c < s.length ∧ s.get? c = some '.' then
          if ell = none ∧ i ≠ 12 then none
          else if 16 < i + 4 then none
          else
            match parseIPv4 s with
            | none => none
            | some ip4 =>
              let ip2 := ((((ip.set i (ip4.getD 12 0)).set (i + 1) (ip4.getD 13 0)).set
                  (i + 2) (ip4.getD 14 0)).set (i + 3) (ip4.getD 15 0))
              some (ip2, i + 4, ell, [])
        else
          let ip2 := (ip.set i (n / 256)).set (i + 1) (n % 256)
          let i2 := i + 2
          let s2 := s.drop c
          if s2.isEmpty then some (ip2, i2, ell, s2)
          else if s2.head? ≠ some ':' ∨ s2.length = 1 then none
          else
            let s3 := s2.drop 1
            if s3.head? = some ':' then
              if ell ≠ none then none
              else
                let s4 := s3.drop 1
                if s4.isEmpty then some (ip2, i2, some i2, s4)
                else p6Loop fuel s4 ip2 i2 (some i2)
            else p6Loop fuel s3 ip2 i2 ell

/-- Go `net.parseIPv6`: leading `::` handling, the main loop, then the
ellipsis expansion (shift the written groups right and zero-fill). -/
def parseIPv6 (s : List Char) : Option (List Nat) :=
  let zero16 : List Nat := List.replicate 16 0
  let hasLeadEll : Bool := decide (2 ≤ s.length) && decide (s.take 2 = [':', ':'])
  let s1 := if hasLeadEll then s.drop 2 else s
  let ell0 : Option Nat := if hasLeadEll then some 0 else none
  if hasLeadEll ∧ s1.isEmpty then some zero16
  else
    match p6Loop 8 s1 zero16 0 ell0 with
    | none => none
    | some (ip, i, ell, srem) =>
      if srem.isEmpty = false then none
      else if i < 16 then
        match ell with
        | none => none
        | some e => some (ip.take e ++ List.replicate (16 - i) 0 ++ (ip.drop e).take (i - e))
      else
        match ell with
        | some _ => none
        | none => some ip

/-- The dispatch scan of Go `net.ParseIP`: the first `.` or `:` decides
the family; a string containing neither is not an address. -/
def parseIPClassify : List Char → Option Bool
  | [] => none
  | c :: cs =>
    if c == '.' then some true
    else if c == ':' then some false
    else parseIPClassify cs

/-- Go `net.ParseIP` on a character list: `none` is Go's nil result. -/
def parseIPList (s : List Char) : Option (List Nat) :=
  match parseIPClassify s with
  | some true => parseIPv4 s
  | some false => parseIPv6 s
  | none => none

/-- Go `net.ParseIP`. -/
def ParseIP (s : String) : NetIP := parseIPList s.data

/-- Go `net.CIDRMask`: `ones` leading one-bits in a `bits/8`-byte mask;
the empty list models the nil mask returned on invalid arguments. -/
def CIDRMask (ones bits : Nat) : List Nat :=
  if bits ≠ 32 ∧ bits ≠ 128 then []
  else if bits < ones then []
  else (List.range (bits / 8)).map (fun i =>
    if 8 * (i + 1) ≤ ones then 0xff else 255 - (255 >>> (ones - 8 * i)))

/-- Go `net.IP.To4`: a 4-byte address is returned as is; a 16-byte
address with the v4-in-v6 marker is shortened to its last 4 bytes;
anything else gives nil. -/
def To4 (ip : List Nat) : Option (List Nat) :=
  if ip.length = 4 then some ip
  else if ip.length = 16 ∧ (ip.take 10).all (fun b => b == 0) ∧
      ip.get? 10 = some 255 ∧ ip.get? 11 = some 255 then
    some (ip.drop 12)
  else none

/-- Go `net.IP.Mask`: align a 16-byte mask with a 4-byte address or a
4-byte mask with a v4-in-v6 address, then AND byte-wise; mismatched
lengths give nil. -/
def maskIP (ip mask : List Nat) : List Nat :=
  let mask1 :=
    if mask.length = 16 ∧ ip.length = 4 ∧ (mask.take 12).all (fun b => b == 0xff) then
      mask.drop 12
    else mask
  let ip1 :=
    if mask1.length = 4 ∧ ip.length = 16 ∧ ip.take 12 = v4InV6 then ip.drop 12 else ip
  if ip1.length ≠ mask1.length then []
  else List.zipWith (fun a b => a &&& b) ip1 mask1

/-- Go `net.IPNet`: a network given by base address bytes and mask bytes. -/
structure IPNet where
  ip : List Nat
  mask : List Nat
deriving DecidableEq

/-- Go `net.networkNumberAndMask`: normalize the network base to 4-byte
form when it is v4-compatible and align the mask's length with it;
`([], [])` models the nil, nil result for malformed networks. -/
def networkNumberAndMask (n : IPNet) : List Nat × List Nat :=
  match (match To4 n.ip with
         | some x => some x
         | none => if n.ip.length ≠ 16 then none else some n.ip) with
  | none => ([], [])
  | some ip =>
    let m := n.mask
    if m.length = 4 then
      if ip.length ≠ 4 then ([], []) else (ip, m)
    else if m.length = 16 then
      if ip.length = 4 then (ip, m.drop 12) else (ip, m)
    else (ip, m)

/-- Go `net.IPNet.Contains`: normalize the queried address with To4,
require equal lengths, then check the masked bytes. -/
def Contains (n : IPNet) (ip0 : List Nat) : Bool :=
  match networkNumberAndMask n with
  | (nn, m) =>
    let ip := match To4 ip0 with
              | some x => x
              | none => ip0
    if ip.length ≠ nn.length then false
    else (List.range ip.length).all (fun i =>
      (nn.getD i 0) &&& (m.getD i 0) == (ip.getD i 0) &&& (m.getD i 0))

/-- Go `net.ParseCIDR` (only the `*IPNet` result is used by the library):
split at the first slash, parse the address part as v4 then v6, parse the
prefix length, and build the masked network. -/
def ParseCIDR (s : List Char) : Option IPNet :=
  match s.findIdx? (fun c => c == '/') with
  | none => none
  | some i =>
    let addr := s.take i
    let maskStr := s.drop (i + 1)
    let (iplen, ipo) :=
      match parseIPv4 addr with
      | some ip => (4, some ip)
      | none => (16, parseIPv6 addr)
    match ipo with
    | none => none
    | some ip =>
      match dtoi maskStr with
      | (n, c, ok) =>
        if ok = false ∨ c ≠ maskStr.length ∨ 8 * iplen < n then none
        else
          let m := CIDRMask n (8 * iplen)
          some ⟨maskIP ip m, m⟩

/-- main.go `netFromIPOrCIDR`: try CIDR first, then a bare address
(normalized to 4-byte form when v4-compatible) with a full-width mask;
`none` models the non-nil error return. -/
def netFromIPOrCIDR (s : String) : Option IPNet :=
  match ParseCIDR s.data with
  | some ipnet => some ipnet
  | none =>
    match parseIPList s.data with
    | none => none
    | some ip0 =>
      let ip := match To4 ip0 with
                | some v4 => v4
                | none => ip0
      some ⟨ip, CIDRMask (8 * ip.length) (8 * ip.length)⟩

/-- main.go `TrustedProxies`: the ordered list of trusted networks. -/
structure TrustedProxies where
  trustedCIDRs : List IPNet
deriving DecidableEq

/-- main.go `New`. -/
def New : TrustedProxies := ⟨[]⟩

/-- main.go `AddFromString`: a parse failure is swallowed (the error
component is `none` on every path, mirroring `return nil` in both
branches); on success the network is appended. -/
def TrustedProxies.AddFromString (t : TrustedProxies) (s : String) :
    TrustedProxies × Option String :=
  match netFromIPOrCIDR s with
  | none => (t, none)
  | some ipnet => (⟨t.trustedCIDRs ++ [ipnet]⟩, none)

/-- main.go `IsIPTrusted`: first network in addition order containing the
address, or `none`. -/
def TrustedProxies.IsIPTrusted (t : TrustedProxies) (ip : List Nat) : Option IPNet :=
  t.trustedCIDRs.find? (fun ipnet => Contains ipnet ip)

/-- main.go `headerToIPs`: split the header on commas; a single segment
that trims to the empty string yields the empty list, otherwise every
trimmed segment is parsed (a failed parse contributes the nil entry). -/
def headerToIPs (headerValue : String) : List NetIP :=
  let items := splitOnComma headerValue.data
  if items.length = 1 ∧ trimSpace (items.headD []) = [] then []
  else items.map (fun val => parseIPList (trimSpace val))

/-- The backward loop of main.go `filterOutIPsFromUntrustedSources`,
indexed by the current position. The loop has no lower bound check: after
a trusted element at index 0 the Go code decrements `idx` to -1 and the
next `ips[idx]` read panics, modelled by the `none` result; an
out-of-range read is likewise `none`. A nil element breaks before being
appended; an untrusted element breaks after being appended. -/
def TrustedProxies.filterLoop (t : TrustedProxies) (ips : List NetIP) :
    Nat → List NetIP → Option (List NetIP)
  | idx, rv =>
    match ips.get? idx with
    | none => none
    | some none => some rv
    | some (some ip) =>
      let rv1 := rv ++ [some ip]
      match t.IsIPTrusted ip with
      | some _ =>
        match idx with
        | 0 => none
        | i + 1 => t.filterLoop ips i rv1
      | none => some rv1

/-- main.go `filterOutIPsFromUntrustedSources`: append the peer to the
header-derived candidates and walk backward from the last index. -/
def TrustedProxies.filterOutIPsFromUntrustedSources (t : TrustedProxies)
    (remoteAddr : NetIP) (header : String) : Option (List NetIP) :=
  let ips := headerToIPs header ++ [remoteAddr]
  t.filterLoop ips (ips.length - 1) []

/-- main.go `DeduceClientIP`: the last element of the filtered chain;
indexing `rv[len(rv)-1]` on an empty chain panics, modelled by `none`
(as is a panic inside the walk itself). -/
def TrustedProxies.DeduceClientIP (t : TrustedProxies) (remoteAddr : NetIP)
    (header : String) : Option NetIP :=
  match t.filterOutIPsFromUntrustedSources remoteAddr header with
  | none => none
  | some rv =>
    match rv.getLast? with
    | none => none
    | some x => some x

/-- Build a store from a list of specification strings, as a caller would
by repeated `AddFromString`. -/
def storeOf (specs : List String) : TrustedProxies :=
  specs.foldl (fun t s => (t.AddFromString s).1) New

def s10 : String := "10.10.10.10"
def s20 : String := "20.20.20.20"
def s30 : String := "30.30.30.30"
def b10 : List Nat := v4InV6 ++ [10, 10, 10, 10]
def b20 : List Nat := v4InV6 ++ [20, 20, 20, 20]
def b30 : List Nat := v4InV6 ++ [30, 30, 30, 30]
def sEmpty : String := ""
def sWs : String := "  "
def sUgh : String := "ugh"
def sBad : String := "this is not valid"
def sMapped : String := "::ffff:10.10.10.10"
def sCIDR8 : String := "10.0.0.0/8"
def hdrScen : String := "30.30.30.30, 20.20.20.20"
def hdr3 : String := "10.10.10.10, ugh, 20.20.20.20"
def sXY : String := "x,y"
def netR8 : IPNet := ⟨[10, 0, 0, 0], [255, 0, 0, 0]⟩
def netV6 : IPNet := ⟨[32, 1, 13, 184] ++ List.replicate 12 0, CIDRMask 32 128⟩


/-! ## Helper lemmas -/

lemma find?_append_last {α} (p : α → Bool) (l : List α) (a : α) (h : p a = true) :
    ∃ b, (l ++ [a]).find? p = some b ∧ p b = true := by
  induction l with
  | nil => exact ⟨a, by simp [List.find?, h], h⟩
  | cons x xs ih =>
    by_cases hx : p x = true
    · exact ⟨x, by simp [List.find?_cons_of_pos _ hx], hx⟩
    · obtain ⟨b, hb1, hb2⟩ := ih
      refine ⟨b, ?_, hb2⟩
      rw [List.cons_append, List.find?_cons_of_neg _ (by simp [hx]), hb1]

lemma find?_first {α} (p : α → Bool) (l1 l2 : List α) (a : α)
    (h1 : ∀ x ∈ l1, p x = false) (h : p a = true) :
    (l1 ++ a :: l2).find? p = some a := by
  induction l1 with
  | nil => simp [List.find?_cons_of_pos _ h]
  | cons x xs ih =>
    rw [List.cons_append, List.find?_cons_of_neg _ (by simp [h1 x (by simp)])]
    exact ih (fun y hy => h1 y (by simp [hy]))

lemma To4_length {ip x : List Nat} (h : To4 ip = some x) : x.length = 4 := by
  unfold To4 at h
  split_ifs at h with h1 h2
  · cases h; exact h1
  · cases h; simp [List.length_drop, h2.1]

lemma To4_none_length {ip : List Nat} (h : To4 ip = none) : ip.length ≠ 4 := by
  intro h4
  simp [To4, h4] at h

lemma nnm_of_To4_some {R : IPNet} {y : List Nat} (h : To4 R.ip = some y) :
    (networkNumberAndMask R).1 = y := by
  have hy : y.length = 4 := To4_length h
  simp only [networkNumberAndMask, h]
  split_ifs <;> simp_all

lemma nnm_of_To4_none {R : IPNet} (h : To4 R.ip = none) :
    (networkNumberAndMask R).1 = [] ∨ (networkNumberAndMask R).1.length = 16 := by
  simp only [networkNumberAndMask, h]
  by_cases h16 : R.ip.length = 16
  · simp only [h16, ne_eq, not_true_eq_false, if_false]
    split_ifs <;> simp_all
  · simp [h16]

lemma contains_v6net_v4ip {R : IPNet} {A : List Nat}
    (hA : (To4 A).isSome = true) (hR : To4 R.ip = none) : Contains R A = false := by
  obtain ⟨x, hx⟩ := Option.isSome_iff_exists.mp hA
  have hxl : x.length = 4 := To4_length hx
  simp only [Contains, hx]
  rcases nnm_of_To4_none hR with h0 | h16
  · rw [h0]
    simp [hxl]
  · rw [show (networkNumberAndMask R) = ((networkNumberAndMask R).1, (networkNumberAndMask R).2) from rfl]
    simp [hxl, h16]
lemma contains_v4net_v6ip {R : IPNet} {A : List Nat}
    (hA : To4 A = none) (hR : (To4 R.ip).isSome = true) : Contains R A = false := by
  obtain ⟨y, hy⟩ := Option.isSome_iff_exists.mp hR
  have hyl : y.length = 4 := To4_length hy
  have hAl : A.length ≠ 4 := To4_none_length hA
  have hnn : (networkNumberAndMask R).1 = y := nnm_of_To4_some hy
  simp only [Contains, hA]
  rw [show (networkNumberAndMask R) = ((networkNumberAndMask R).1, (networkNumberAndMask R).2) from rfl, hnn]
  simp [hyl, hAl]

/-! ## Claims -/

/-- C1 (code bug): the claim says that when every header candidate and the
peer are trusted, the backward walk terminates once the index moves before
index 0 and the deduced client is the last appended element (the oldest
header entry, or the peer on an empty header). The loop in
`filterOutIPsFromUntrustedSources` has no lower bound check: after the
element at index 0 is found trusted, `idx` is decremented to -1 and
`ips[idx]` panics with an index-out-of-range error, so nothing is
returned. This theorem evaluates the model at such an input (both header
entries and the peer trusted): the walk and `DeduceClientIP` produce the
panic value `none` instead of a result. -/
theorem claim_C1 :
    (storeOf [s10, s20]).filterOutIPsFromUntrustedSources (ParseIP s10) s20 = none ∧
    (storeOf [s10, s20]).DeduceClientIP (ParseIP s10) s20 = none := by
  constructor
  · decide
  · decide

/-- C2 (code bug): the claim says a nil/unparseable peer is treated like an
unparseable header candidate, immediately yielding that peer slot as both
the sole chain element and the deduced client, with no exception-style
control flow. In the code, the nil peer breaks the walk BEFORE being
appended, so `filterOutIPsFromUntrustedSources` returns the empty chain,
and `DeduceClientIP` then evaluates `trustedIPs[len(trustedIPs)-1]` on an
empty slice, which panics. This theorem evaluates the model at an
unparseable peer: the chain is `[]` (not `[peer slot]`) and
`DeduceClientIP` produces the panic value `none`. -/
theorem claim_C2 :
    New.filterOutIPsFromUntrustedSources (ParseIP sUgh) sEmpty = some [] ∧
    New.DeduceClientIP (ParseIP sUgh) sEmpty = none := by
  constructor
  · decide
  · decide

/-- C4 (code bug): the claim says that with an empty header the chain is
`[peer]` and the peer is returned as deduced client regardless of the
peer's trust status. This holds when the peer is untrusted (second
conjunct), but when the peer is trusted the walk decrements `idx` to -1
and `ips[idx]` panics (first conjunct evaluates to the panic value
`none`). -/
theorem claim_C4 :
    (storeOf [s10]).DeduceClientIP (ParseIP s10) sEmpty = none ∧
    New.DeduceClientIP (ParseIP s10) sEmpty = some (ParseIP s10) := by
  constructor
  · decide
  · decide

/-- C3 (counterexample): the claim says an unparseable element encountered
during the walk IS included (as its unparseable marker) as the last
element of the returned chain. With a trusted peer and the header
consisting of the unparseable segment `ugh`, the returned chain is just
`[peer]`: the unparseable marker is not an element of it. -/
theorem claim_C3_counterexample :
    (storeOf [s10]).filterOutIPsFromUntrustedSources (ParseIP s10) sUgh = some [some b10] ∧
    (none : NetIP) ∉ [some b10] := by
  constructor
  · decide
  · decide

/-- C5 (confirmed): (i) after `AddFromString S` where S parses to range R,
`IsIPTrusted` on any address contained in R returns a range containing
that address; (ii) an address contained in no stored range gives `none`;
(iii) when several stored ranges contain the address, the first matching
range in addition order is returned. -/
theorem claim_C5 :
    (∀ (t : TrustedProxies) (S : String) (R : IPNet) (A : List Nat),
      netFromIPOrCIDR S = some R → Contains R A = true →
      ∃ R2, ((t.AddFromString S).1).IsIPTrusted A = some R2 ∧ Contains R2 A = true) ∧
    (∀ (t : TrustedProxies) (A : List Nat),
      (∀ R ∈ t.trustedCIDRs, Contains R A = false) → t.IsIPTrusted A = none) ∧
    (∀ (t : TrustedProxies) (A : List Nat) (l1 l2 : List IPNet) (R : IPNet),
      t.trustedCIDRs = l1 ++ R :: l2 → Contains R A = true →
      (∀ R1 ∈ l1, Contains R1 A = false) → t.IsIPTrusted A = some R) := by
  refine ⟨?_, ?_, ?_⟩
  · intro t S R A hS hC
    simp only [TrustedProxies.AddFromString, hS, TrustedProxies.IsIPTrusted]
    exact find?_append_last _ _ _ hC
  · intro t A h
    exact List.find?_eq_none.mpr (fun R hR => by simp [h R hR])
  · intro t A l1 l2 R ht hC h1
    rw [TrustedProxies.IsIPTrusted, ht]
    exact find?_first _ _ _ _ h1 hC

/-- Witness for C5: the store holding 10.0.0.0/8 reports 10.1.2.3 as
trusted by a range containing it. -/
theorem claim_C5_witness :
    netFromIPOrCIDR sCIDR8 = some netR8 ∧ Contains netR8 [10, 1, 2, 3] = true ∧
    ∃ R2, ((New.AddFromString sCIDR8).1).IsIPTrusted [10, 1, 2, 3] = some R2 ∧
      Contains R2 [10, 1, 2, 3] = true :=
  ⟨by decide, by decide, claim_C5.1 New sCIDR8 netR8 [10, 1, 2, 3] (by decide) (by decide)⟩

/-- C6 (confirmed): containment never crosses address families. A
v4-family address (`To4` succeeds, which includes addresses written in
v4-mapped-v6 textual form, since `ParseIP` stores them with the v4-in-v6
marker) is never contained in a range whose base is v6-family (`To4`
fails), and vice versa; consequently `IsIPTrusted` only ever returns a
range of the same family as the queried address. -/
theorem claim_C6 :
    (∀ (R : IPNet) (A : List Nat), (To4 A).isSome = true → To4 R.ip = none →
      Contains R A = false) ∧
    (∀ (R : IPNet) (A : List Nat), To4 A = none → (To4 R.ip).isSome = true →
      Contains R A = false) ∧
    (∀ (t : TrustedProxies) (A : List Nat) (R : IPNet),
      t.IsIPTrusted A = some R → ((To4 A).isSome ↔ (To4 R.ip).isSome)) := by
  refine ⟨fun R A hA hR => contains_v6net_v4ip hA hR,
          fun R A hA hR => contains_v4net_v6ip hA hR, ?_⟩
  intro t A R h
  rw [TrustedProxies.IsIPTrusted] at h
  have hC : Contains R A = true := by simpa using List.find?_some h
  constructor
  · intro hA
    by_contra hR
    rw [contains_v6net_v4ip hA (Option.not_isSome_iff_eq_none.mp hR)] at hC
    exact Bool.false_ne_true hC
  · intro hR
    by_contra hA
    rw [contains_v4net_v6ip (Option.not_isSome_iff_eq_none.mp hA) hR] at hC
    exact Bool.false_ne_true hC

/-- Witness for C6: the textual v4-mapped form ::ffff:10.10.10.10 parses
to a v4-family address, and it is not contained in the v6 range
2001:db8::/32. -/
theorem claim_C6_witness :
    ParseIP sMapped = some b10 ∧ (To4 b10).isSome = true ∧ To4 netV6.ip = none ∧
    Contains netV6 b10 = false :=
  ⟨by decide, by decide, by decide, claim_C6.1 netV6 b10 (by decide) (by decide)⟩

/-- C8 (confirmed): on an input string that neither `ParseCIDR` nor
`ParseIP` accepts, `AddFromString` returns no error and leaves the store
untouched, so every later `IsIPTrusted` query is unaffected. -/
theorem claim_C8 :
    ∀ (t : TrustedProxies) (s : String),
      ParseCIDR s.data = none → parseIPList s.data = none →
      (t.AddFromString s).2 = none ∧ (t.AddFromString s).1 = t ∧
      ∀ A, ((t.AddFromString s).1).IsIPTrusted A = t.IsIPTrusted A := by
  intro t s h1 h2
  have hn : netFromIPOrCIDR s = none := by
    simp [netFromIPOrCIDR, h1, h2]
  simp [TrustedProxies.AddFromString, hn]

/-- Witness for C8: adding the malformed specification `this is not
valid` succeeds as a no-op. -/
theorem claim_C8_witness :
    ParseCIDR sBad.data = none ∧ parseIPList sBad.data = none ∧
    ((New.AddFromString sBad).2 = none ∧ (New.AddFromString sBad).1 = New ∧
      ∀ A, ((New.AddFromString sBad).1).IsIPTrusted A = New.IsIPTrusted A) :=
  ⟨by decide, by decide, claim_C8 New sBad (by decide) (by decide)⟩

lemma splitOnComma_ne_nil (cs : List Char) : splitOnComma cs ≠ [] := by
  cases cs with
  | nil => simp [splitOnComma]
  | cons c cs =>
    simp only [splitOnComma]
    split_ifs
    · simp
    · cases h : splitOnComma cs <;> simp

lemma splitOnComma_eq_singleton {cs x : List Char} (h : splitOnComma cs = [x]) : x = cs := by
  induction cs generalizing x with
  | nil =>
    simp only [splitOnComma] at h
    exact (List.cons_eq_cons.mp h).1.symm
  | cons c cs ih =>
    simp only [splitOnComma] at h
    by_cases hc : (c == ',') = true
    · rw [if_pos hc] at h
      exact absurd (List.cons_eq_cons.mp h).2 (splitOnComma_ne_nil cs)
    · rw [if_neg hc] at h
      cases h' : splitOnComma cs with
      | nil => exact absurd h' (splitOnComma_ne_nil cs)
      | cons g gs =>
        rw [h'] at h
        obtain ⟨h1, h2⟩ := List.cons_eq_cons.mp h
        have hg : g = cs := ih (by rw [h', h2])
        rw [← h1, hg]

lemma splitOnComma_no_comma {cs : List Char} (h : ∀ c ∈ cs, c ≠ ',') :
    splitOnComma cs = [cs] := by
  induction cs with
  | nil => simp [splitOnComma]
  | cons c cs ih =>
    have hc : (c == ',') = false := by
      simp [h c (by simp)]
    simp only [splitOnComma, hc, Bool.false_eq_true, if_false]
    rw [ih (fun x hx => h x (by simp [hx]))]

lemma trimSpace_eq_nil_iff (cs : List Char) :
    trimSpace cs = [] ↔ cs.all isSpace = true := by
  unfold trimSpace
  rw [List.reverse_eq_nil_iff, List.dropWhile_eq_nil_iff]
  constructor
  · intro h
    rw [List.all_eq_true]
    intro a ha
    rw [← List.takeWhile_append_dropWhile (p := isSpace) (l := cs)] at ha
    rcases List.mem_append.mp ha with h1 | h1
    · exact List.mem_takeWhile_imp h1
    · exact h a (List.mem_reverse.mpr h1)
  · intro h a ha
    rw [List.all_eq_true] at h
    refine h a ?_
    have h1 : a ∈ cs.dropWhile isSpace := List.mem_reverse.mp ha
    rw [← List.takeWhile_append_dropWhile (p := isSpace) (l := cs)]
    exact List.mem_append.mpr (Or.inr h1)

/-- C7 (confirmed): `headerToIPs` yields the empty sequence exactly on an
all-whitespace (in particular empty) comma-free header, and otherwise
parses every comma-separated, whitespace-trimmed segment in position; the
concrete conjuncts check the spec's three examples, the last one yielding
valid address, unparseable marker, valid address, in that order. -/
theorem claim_C7 :
    (∀ h : String, h.data.all isSpace = true → headerToIPs h = []) ∧
    (∀ h : String, h.data.all isSpace = false →
      headerToIPs h = (splitOnComma h.data).map (fun seg => parseIPList (trimSpace seg))) ∧
    headerToIPs sEmpty = [] ∧ headerToIPs sWs = [] ∧
    headerToIPs hdr3 = [some b10, none, some b20] := by
  refine ⟨?_, ?_, by decide, by decide, by decide⟩
  · intro h hall
    have hnc : ∀ c ∈ h.data, c ≠ ',' := by
      intro c hc he
      have := (List.all_eq_true.mp hall) c hc
      rw [he] at this
      simp [isSpace] at this
    rw [headerToIPs, splitOnComma_no_comma hnc]
    have ht : trimSpace h.data = [] := (trimSpace_eq_nil_iff _).mpr hall
    simp [ht]
  · intro h hall
    rw [headerToIPs]
    have hg : ¬ ((splitOnComma h.data).length = 1 ∧
        trimSpace ((splitOnComma h.data).headD []) = []) := by
      rintro ⟨h1, h2⟩
      obtain ⟨x, hx⟩ := List.length_eq_one.mp h1
      have hxc : x = h.data := splitOnComma_eq_singleton hx
      rw [hx] at h2
      simp only [List.headD_cons] at h2
      rw [hxc, trimSpace_eq_nil_iff] at h2
      rw [h2] at hall
      exact Bool.true_eq_false.mp hall
    rw [if_neg hg]

/-- Witness for C7: a header that is not all-whitespace is mapped
segment-by-segment. -/
theorem claim_C7_witness :
    sXY.data.all isSpace = false ∧
    headerToIPs sXY = (splitOnComma sXY.data).map (fun seg => parseIPList (trimSpace seg)) :=
  ⟨by decide, claim_C7.2.1 sXY (by decide)⟩

/-- Behaviour of the backward walk: whenever `filterLoop` returns a chain
(no panic), the appended part is the reverse of a contiguous slice of the
candidate list ending at the starting index, its head is the element at
the starting index, all its elements are parseable, and all but the last
appended element were found trusted; it is empty only when the starting
element is the nil address. -/
lemma filterLoop_spec (t : TrustedProxies) (ips : List NetIP) :
    ∀ (idx : Nat) (acc rv : List NetIP),
      t.filterLoop ips idx acc = some rv →
      ∃ rest j,
        rv = acc ++ rest ∧
        j ≤ idx + 1 ∧
        rest = ((ips.drop j).take (idx + 1 - j)).reverse ∧
        (rest = [] → ips.get? idx = some none) ∧
        (rest ≠ [] → rest.head? = ips.get? idx) ∧
        (∀ x ∈ rest, ∃ ip, x = some ip) ∧
        (∀ x ∈ rest.dropLast, ∃ ip r, x = some ip ∧ t.IsIPTrusted ip = some r) := by
  intro idx
  induction idx with
  | zero =>
    intro acc rv h
    rw [TrustedProxies.filterLoop] at h
    split at h
    · exact absurd h (by simp)
    · rename_i hg
      obtain rfl : acc = rv := Option.some_inj.mp h
      exact ⟨[], 1, by simp, by omega, by simp, fun _ => hg, by simp, by simp, by simp⟩
    · rename_i ip hg
      split at h
      · exact absurd h (by simp)
      · rename_i hT
        obtain rfl : acc ++ [some ip] = rv := Option.some_inj.mp h
        have hg0 : ips[0]? = some (some ip) := by
          rw [← List.get?_eq_getElem?]
          exact hg
        have hsl : ((ips.drop 0).take (0 + 1 - 0)).reverse = [some ip] := by
          rw [List.drop_zero, show (0 + 1 - 0) = 0 + 1 from rfl, List.take_succ]
          simp [hg0]
        refine ⟨[some ip], 0, rfl, by omega, hsl.symm, by simp, ?_, ?_, by simp⟩
        · intro _
          rw [List.head?_cons]
          exact hg.symm
        · intro x hx
          rw [List.mem_singleton] at hx
          exact ⟨ip, hx⟩
  | succ i ih =>
    intro acc rv h
    rw [TrustedProxies.filterLoop] at h
    split at h
    · exact absurd h (by simp)
    · rename_i hg
      obtain rfl : acc = rv := Option.some_inj.mp h
      refine ⟨[], i + 2, by simp, by omega, ?_, fun _ => hg, by simp, by simp, by simp⟩
      rw [show i + 1 + 1 - (i + 2) = 0 by omega]
      simp
    · rename_i ip hg
      split at h
      · rename_i r hT
        obtain ⟨rest', j', hrv, hj, hslice, hnil, hhead, hparse, htrust⟩ :=
          ih (acc ++ [some ip]) rv h
        have hg1 : ips[i + 1]? = some (some ip) := by
          rw [← List.get?_eq_getElem?]
          exact hg
        have h2 : (ips.drop j').take (i + 1 + 1 - j') =
            (ips.drop j').take (i + 1 - j') ++ [some ip] := by
          rw [show i + 1 + 1 - j' = (i + 1 - j') + 1 by omega, List.take_succ]
          have hx : (ips.drop j')[i + 1 - j']? = some (some ip) := by
            rw [List.getElem?_drop, show j' + (i + 1 - j') = i + 1 by omega]
            exact hg1
          simp [hx]
        refine ⟨some ip :: rest', j', ?_, by omega, ?_, by simp, ?_, ?_, ?_⟩
        · rw [hrv]
          simp
        · rw [h2, List.reverse_append, ← hslice]
          simp
        · intro _
          rw [List.head?_cons]
          exact hg.symm
        · intro x hx
          rcases List.mem_cons.mp hx with h1 | h1
          · exact ⟨ip, h1⟩
          · exact hparse x h1
        · intro x hx
          cases rest' with
          | nil => simp at hx
          | cons y ys =>
            rw [List.dropLast_cons₂] at hx
            rcases List.mem_cons.mp hx with h1 | h1
            · exact ⟨ip, r, h1, hT⟩
            · exact htrust x h1
      · rename_i hT
        obtain rfl : acc ++ [some ip] = rv := Option.some_inj.mp h
        have hg1 : ips[i + 1]? = some (some ip) := by
          rw [← List.get?_eq_getElem?]
          exact hg
        have hsl : ((ips.drop (i + 1)).take (i + 1 + 1 - (i + 1))).reverse = [some ip] := by
          rw [show i + 1 + 1 - (i + 1) = 0 + 1 by omega, List.take_succ]
          have hx : (ips.drop (i + 1))[0]? = some (some ip) := by
            rw [List.getElem?_drop]
            simpa using hg1
          simp [hx]
        refine ⟨[some ip], i + 1, rfl, by omega, hsl.symm, by simp, ?_, ?_, by simp⟩
        · intro _
          rw [List.head?_cons]
          exact hg.symm
        · intro x hx
          rw [List.mem_singleton] at hx
          exact ⟨ip, hx⟩

/-- C3 (amended): each parseable visited element is appended to the result
before the trust decision, so an untrusted address halts the walk and is
included as the last appended element; an unparseable (nil) element also
halts the walk but does so before the append, so it is NOT included in
the returned chain — the chain never contains the unparseable marker. -/
theorem claim_C3 :
    (∀ (t : TrustedProxies) (ips : List NetIP) (idx : Nat) (acc : List NetIP),
      ips.get? idx = some none → t.filterLoop ips idx acc = some acc) ∧
    (∀ (t : TrustedProxies) (ips : List NetIP) (idx : Nat) (acc : List NetIP) (ip : List Nat),
      ips.get? idx = some (some ip) → t.IsIPTrusted ip = none →
      t.filterLoop ips idx acc = some (acc ++ [some ip])) ∧
    (∀ (t : TrustedProxies) (r : NetIP) (hd : String) (rv : List NetIP),
      t.filterOutIPsFromUntrustedSources r hd = some rv → (none : NetIP) ∉ rv) := by
  refine ⟨?_, ?_, ?_⟩
  · intro t ips idx acc hg
    rw [TrustedProxies.filterLoop, hg]
  · intro t ips idx acc ip hg hT
    rw [TrustedProxies.filterLoop, hg]
    simp only [hT]
  · intro t r hd rv hf
    have hf' : t.filterLoop (headerToIPs hd ++ [r])
        ((headerToIPs hd ++ [r]).length - 1) [] = some rv := hf
    obtain ⟨rest, j, hrv, hj, hslice, hnil, hhead, hparse, htrust⟩ :=
      filterLoop_spec t _ _ [] rv hf'
    rw [List.nil_append] at hrv
    subst hrv
    intro hmem
    obtain ⟨ip, hip⟩ := hparse none hmem
    exact Option.noConfusion hip

/-- Witness for C3 (amended): a nil element at the current index returns
the accumulator unchanged. -/
theorem claim_C3_witness :
    ([none] : List NetIP).get? 0 = some none ∧ New.filterLoop [none] 0 [] = some [] :=
  ⟨rfl, claim_C3.1 New [none] 0 [] rfl⟩

/-- The deduced client is exactly the last element of the chain the
walk returns, and nothing on a panic. -/
lemma DeduceClientIP_eq_some (t : TrustedProxies) (r : NetIP) (hd : String) (c : NetIP) :
    t.DeduceClientIP r hd = some c ↔
    ∃ rv, t.filterOutIPsFromUntrustedSources r hd = some rv ∧ rv.getLast? = some c := by
  rw [TrustedProxies.DeduceClientIP]
  cases hf : t.filterOutIPsFromUntrustedSources r hd with
  | none => simp
  | some rv =>
    cases hgl : rv.getLast? with
    | none => simp [hgl]
    | some x => simp [hgl, eq_comm]

/-- C9 (confirmed): with a parseable peer, whenever the walk returns, the
returned chain is non-empty, contains the peer, and `DeduceClientIP`
returns a member of that chain. -/
theorem claim_C9 :
    ∀ (t : TrustedProxies) (a : List Nat) (hd : String) (rv : List NetIP),
      t.filterOutIPsFromUntrustedSources (some a) hd = some rv →
      rv ≠ [] ∧ some a ∈ rv ∧
      ∃ c, t.DeduceClientIP (some a) hd = some c ∧ c ∈ rv := by
  intro t a hd rv hf
  have hf' : t.filterLoop (headerToIPs hd ++ [some a])
      ((headerToIPs hd ++ [some a]).length - 1) [] = some rv := hf
  obtain ⟨rest, j, hrv, hj, hslice, hnil, hhead, hparse, htrust⟩ :=
    filterLoop_spec t _ _ [] rv hf'
  rw [List.nil_append] at hrv
  subst hrv
  have hlast : (headerToIPs hd ++ [some a]).get?
      ((headerToIPs hd ++ [some a]).length - 1) = some (some a) := by
    rw [← List.getLast?_eq_get?, List.getLast?_concat]
  have hne : rv ≠ [] := by
    intro h0
    have hx := hnil h0
    rw [hlast] at hx
    simp at hx
  refine ⟨hne, ?_, ?_⟩
  · have hh := hhead hne
    rw [hlast] at hh
    cases rv with
    | nil => exact absurd rfl hne
    | cons y ys =>
      rw [List.head?_cons] at hh
      obtain rfl : y = some a := Option.some_inj.mp hh
      exact List.mem_cons_self _ _
  · have hgl : rv.getLast? = some (rv.getLast hne) :=
      List.getLast?_eq_getLast_of_ne_nil hne
    exact ⟨rv.getLast hne,
      (DeduceClientIP_eq_some t (some a) hd _).mpr ⟨rv, hf, hgl⟩,
      List.getLast_mem hne⟩

/-- Witness for C9: trusted peer 10.10.10.10 with header 20.20.20.20. -/
theorem claim_C9_witness :
    (storeOf [s10]).filterOutIPsFromUntrustedSources (some b10) s20 =
      some [some b10, some b20] ∧
    ([some b10, some b20] ≠ [] ∧ some b10 ∈ [some b10, some b20] ∧
      ∃ c, (storeOf [s10]).DeduceClientIP (some b10) s20 = some c ∧
        c ∈ [some b10, some b20]) :=
  ⟨by decide, claim_C9 (storeOf [s10]) b10 s20 [some b10, some b20] (by decide)⟩

/-- C10 (confirmed, implicit claim): whenever the evaluation returns, the
returned chain starts at the peer, equals the reverse of a contiguous
suffix of ParseHeader(header) ++ [peer], every element except the last is
confirmed trusted by the store, and the deduced client is exactly the
chain's last element. -/
theorem claim_C10 :
    ∀ (t : TrustedProxies) (peer : NetIP) (hd : String) (c : NetIP),
      t.DeduceClientIP peer hd = some c →
      ∃ rv, t.filterOutIPsFromUntrustedSources peer hd = some rv ∧
        rv.head? = some peer ∧
        (∃ k, rv = ((headerToIPs hd ++ [peer]).drop k).reverse) ∧
        (∀ x ∈ rv.dropLast, ∃ ip r, x = some ip ∧ t.IsIPTrusted ip = some r) ∧
        rv.getLast? = some c := by
  intro t peer hd c h
  obtain ⟨rv, hf, hgl⟩ := (DeduceClientIP_eq_some t peer hd c).mp h
  have hf' : t.filterLoop (headerToIPs hd ++ [peer])
      ((headerToIPs hd ++ [peer]).length - 1) [] = some rv := hf
  obtain ⟨rest, j, hrv, hj, hslice, hnil, hhead, hparse, htrust⟩ :=
    filterLoop_spec t _ _ [] rv hf'
  rw [List.nil_append] at hrv
  subst hrv
  have hlast : (headerToIPs hd ++ [peer]).get?
      ((headerToIPs hd ++ [peer]).length - 1) = some peer := by
    rw [← List.getLast?_eq_get?, List.getLast?_concat]
  have hne : rv ≠ [] := by
    intro h0
    rw [h0] at hgl
    simp at hgl
  refine ⟨rv, hf, ?_, ⟨j, ?_⟩, htrust, hgl⟩
  · rw [hhead hne, hlast]
  · rw [hslice]
    congr 1
    have hlen0 : 0 < (headerToIPs hd ++ [peer]).length := by
      simp
    rw [show (headerToIPs hd ++ [peer]).length - 1 + 1 - j =
        (headerToIPs hd ++ [peer]).length - j by omega]
    rw [← List.length_drop]
    exact List.take_length _

/-- Witness for C10: the README scenario with store {10.10.10.10,
20.20.20.20}, peer 10.10.10.10, header 30.30.30.30, 20.20.20.20. -/
theorem claim_C10_witness :
    (storeOf [s10, s20]).DeduceClientIP (some b10) hdrScen = some (some b30) ∧
    (∃ rv, (storeOf [s10, s20]).filterOutIPsFromUntrustedSources (some b10) hdrScen =
        some rv ∧
      rv.head? = some (some b10) ∧
      (∃ k, rv = ((headerToIPs hdrScen ++ [some b10]).drop k).reverse) ∧
      (∀ x ∈ rv.dropLast, ∃ ip r, x = some ip ∧
        (storeOf [s10, s20]).IsIPTrusted ip = some r) ∧
      rv.getLast? = some (some b30)) :=
  ⟨by decide, claim_C10 (storeOf [s10, s20]) (some b10) hdrScen (some b30) (by decide)⟩
